import Mathlib

/-!
Verification of the 4zip chunked compressor/decompressor.

The development shallowly embeds the C sources:
* `src/compressor.c` — LZ4 variant: `jobqueue_init`/`jobqueue_pop`,
  `worker_thread`, `cpu_hash_fnv1a`, `compress_file_streaming`;
* `src/decompressor.c` (first unit, lines 11-82) — `decompress_file`;
* `src/decompressor.c` (embedded ZSTD compressor unit, `worker_func`) —
  per-chunk storage-mode selection;
* `src/unnamed/part_002` — the same job-queue code (`jobqueue_pop`).

Bytes are modelled as `Nat` (values < 256 produced by all encoders); the
compression and decompression codecs (LZ4/ZSTD) are external libraries and are
modelled as parameters with `Option`-valued results (`none` = the library call
reported failure), exactly as the C code branches on their return codes.
File contents are `List Nat`; fallible operations return `Option`.
-/

namespace FourZip

/-- External compression codec: models `LZ4_compress_default` /
`ZSTD_compressCCtx` called with a `compressBound`-sized destination buffer.
`none` models a failure return (`cs <= 0` resp. `ZSTD_isError`). -/
abbrev Codec := List Nat → Option (List Nat)

/-- External decompression codec: models `LZ4_decompress_safe src dst srcSize
cap` — first argument the stored bytes, second the output capacity
(`orig_size`).  `none` models a negative return; `some out` a success that
wrote `out.length` bytes (at most the capacity). -/
abbrev Decodec := List Nat → Nat → Option (List Nat)

/-! ### Little-endian fixed-width encodings

`compress_file_streaming` writes `uint64_t` and `int` fields with `fwrite`;
`decompress_file` reads them back with `fread`.  We model the byte images
explicitly (little-endian, as on the x86 targets of the Makefile). -/

/-- Little-endian image of a 32-bit unsigned value (4 bytes). -/
def le32 (v : Nat) : List Nat :=
  [v % 256, v / 256 % 256, v / 65536 % 256, v / 16777216 % 256]

/-- Little-endian image of a 64-bit unsigned value (8 bytes). -/
def le64 (v : Nat) : List Nat :=
  [v % 256, v / 256 % 256, v / 65536 % 256, v / 16777216 % 256,
   v / 4294967296 % 256, v / 1099511627776 % 256,
   v / 281474976710656 % 256, v / 72057594037927936 % 256]

/-- Decode 4 little-endian bytes as an unsigned 32-bit value. -/
def decodeU32 (b : List Nat) : Nat :=
  match b with
  | [b0, b1, b2, b3] => b0 + 256 * b1 + 65536 * b2 + 16777216 * b3
  | _ => 0

/-- Decode 8 little-endian bytes as an unsigned 64-bit value. -/
def decodeU64 (b : List Nat) : Nat :=
  match b with
  | [b0, b1, b2, b3, b4, b5, b6, b7] =>
      b0 + 256 * b1 + 65536 * b2 + 16777216 * b3 + 4294967296 * b4 +
        1099511627776 * b5 + 281474976710656 * b6 + 72057594037927936 * b7
  | _ => 0

/-- Byte image of a C `int` (two's complement, 32 bits, little-endian). -/
def int32ToLe (i : Int) : List Nat := le32 (i % 4294967296).toNat

/-- Decode 4 little-endian bytes as a signed C `int`. -/
def decodeI32 (b : List Nat) : Int :=
  let v := decodeU32 b
  if v < 2147483648 then (v : Int) else (v : Int) - 4294967296

/-- Model of `fread(buf, 1, k, f)` on a byte list: returns the `k` bytes and
the rest of the stream, or `none` on a short read (every caller in
`decompress_file` treats a short read as failure). -/
def readBytes (k : Nat) (s : List Nat) : Option (List Nat × List Nat) :=
  if k ≤ s.length then some (s.take k, s.drop k) else none

/-! ### Integrity backend

`compress_file_streaming` first tries `gpu_hash_chunk`; the shipped
`cuda_hash_stub.c` returns `-1` (GPU unavailable), so the run falls back to
`cpu_hash_fnv1a`.  Both compute the same 32-bit FNV-1a hash. -/

/-- `cpu_hash_fnv1a` from `src/compressor.c` (32-bit FNV-1a). -/
def fnv1a32 (data : List Nat) : Nat :=
  data.foldl (fun h b => ((h ^^^ b) * 16777619) % 4294967296) 2166136261

/-! ### Chunk planner

`compress_file_streaming` (src/compressor.c lines 99-140) and `main`
(src/unnamed/part_002 lines 130-154) both plan
`num_chunks = (total_size + chunk - 1) / chunk` chunks; chunk `i` starts at
offset `i * chunk` and has `to_read = min(chunk, total_size - i*chunk)`
bytes. -/

/-- Number of chunks: `(total_size + chunk - 1) / chunk` (uint64 arithmetic,
then cast to `int`; the cast is modelled by a range hypothesis in the
theorems). -/
def numChunks (T C : Nat) : Nat := (T + C - 1) / C

/-- Length of chunk `i`: `to_read = chunk; remain = total - i*chunk;
if (remain < to_read) to_read = remain;`. -/
def chunkLen (T C i : Nat) : Nat :=
  if T - i * C < C then T - i * C else C

/-- A chunk descriptor: id, byte offset and byte length in the source file
(the planner state of `jobs[i]` before the data is attached). -/
structure Descriptor where
  id : Nat
  offset : Nat
  length : Nat
deriving Repr, DecidableEq

/-- The planner output: descriptor `i` covers `[i*C, i*C + chunkLen T C i)`. -/
def planChunks (T C : Nat) : List Descriptor :=
  (List.range (numChunks T C)).map (fun i => ⟨i, i * C, chunkLen T C i⟩)

/-- The chunk data actually read for descriptor `i` of file `X`
(`fread` of `to_read` bytes starting at offset `i * C`). -/
def chunkData (X : List Nat) (C i : Nat) : List Nat :=
  (X.drop (i * C)).take C

/-- All chunk payloads of file `X` in id order. -/
def fileChunks (X : List Nat) (C : Nat) : List (List Nat) :=
  (List.range (numChunks X.length C)).map (fun i => chunkData X C i)

/-! ### Job queue

`JobQueue` from `src/compressor.c` lines 36-58 and `src/unnamed/part_002`
lines 26-46: a descriptor array plus a cursor `next`, and
`jobqueue_pop` takes the mutex, returns `NULL` if `next >= count`, else
returns the job at position `next` and increments the cursor.  The mutex
makes each pop an atomic step, so a concurrent execution is an arbitrary
interleaving of atomic pops; `runSchedule` quantifies over those
interleavings. -/

/-- Queue state: `count` jobs, cursor `next` (the jobs array is indexed by
the returned position, so a pop is modelled as returning its index). -/
structure JobQueue where
  count : Nat
  next : Nat
deriving Repr, DecidableEq

/-- `jobqueue_init(q, jobs, count)`: cursor starts at 0. -/
def jobqueue_init (count : Nat) : JobQueue := ⟨count, 0⟩

/-- `jobqueue_pop`: under the mutex, if `next >= count` return `NULL`,
else return job index `next` and increment the cursor. -/
def jobqueue_pop (q : JobQueue) : Option Nat × JobQueue :=
  if q.count ≤ q.next then (none, q)
  else (some q.next, ⟨q.count, q.next + 1⟩)

/-- `k` successive pops: the list of results and the final queue state. -/
def popSeq : Nat → JobQueue → List (Option Nat) × JobQueue
  | 0, q => ([], q)
  | k + 1, q =>
      let r := jobqueue_pop q
      let rest := popSeq k r.2
      (r.1 :: rest.1, rest.2)

/-- A concurrent run: the schedule lists which worker performs each
(mutex-serialized) pop; each entry of the result pairs the worker with the
claim it obtained. -/
def runSchedule : List Nat → JobQueue → List (Nat × Option Nat)
  | [], _ => []
  | w :: ws, q =>
      let r := jobqueue_pop q
      (w, r.1) :: runSchedule ws r.2

/-! ### Compression worker and storage-mode selection

`worker_func` in the ZSTD compressor unit of `src/decompressor.c`
(lines 384-479): compress the chunk; on a codec error set `csize = 0`;
if `csize > 0` store flag 0 (compressed) with `comp_size = csize`, else
store flag 1 (raw) with the original bytes and `comp_size = r` (the chunk
length).  `worker_thread` in `src/compressor.c` makes the same choice with
`comp_size = -1` standing for the raw case. -/

/-- Per-chunk storage mode: container flag 0 = compressed, 1 = raw. -/
inductive StorageMode where
  | Compressed
  | Raw
deriving Repr, DecidableEq

/-- The per-chunk result slot filled by the worker that owns the chunk. -/
structure ChunkResult where
  mode : StorageMode
  originalLength : Nat
  storedLength : Nat
  payload : List Nat
deriving Repr, DecidableEq

/-- `worker_func` storage-mode selection for one claimed chunk `b`:
`csize` is 0 if the codec errored, else the codec output length; mode is
Compressed iff `csize > 0`, and the raw case stores the original bytes with
`comp_size` set to the chunk length. -/
def processChunk (codec : Codec) (b : List Nat) : ChunkResult :=
  let csize : Nat :=
    match codec b with
    | none => 0
    | some cb => cb.length
  if 0 < csize then
    { mode := StorageMode.Compressed, originalLength := b.length,
      storedLength := csize,
      payload := (codec b).getD [] }
  else
    { mode := StorageMode.Raw, originalLength := b.length,
      storedLength := b.length, payload := b }

/-! ### Compressor (LZ4 variant, `src/compressor.c`)

`worker_thread` stores `comp_size = cs` when `LZ4_compress_default` returns
`cs > 0` and `comp_size = -1` otherwise; the writer then emits, per chunk,
the 4-byte `comp_size` followed by the compressed bytes, or — in the
failure case — the `-1` size, a second `-1` marker `int`, the 8-byte
original size, and the raw bytes. -/

/-- `worker_thread` body for one job: `none` models `comp_size = -1`
(codec failure, or a degenerate zero-length codec output). -/
def workerCompress (c : Codec) (b : List Nat) : Option (List Nat) :=
  match c b with
  | none => none
  | some cb => if 0 < cb.length then some cb else none

/-- One parsed ledger line, `fscanf(fmeta, "%d %zu %d %u", ...)`:
id, original chunk size, stored compressed size (`-1` for raw), hash. -/
structure MetaEntry where
  id : Nat
  origSize : Nat
  compSize : Int
  hash : Nat
deriving Repr, DecidableEq

/-- Container record bytes for one chunk, as written by
`compress_file_streaming` (lines 175-195): `comp_size` then payload on
success; `-1`, `-1` marker, `uint64` original size, then the raw bytes on
failure. -/
def encodeChunk (b : List Nat) (comp : Option (List Nat)) : List Nat :=
  match comp with
  | some cb => int32ToLe (cb.length : Int) ++ cb
  | none => int32ToLe (-1) ++ int32ToLe (-1) ++ le64 b.length ++ b

/-- Ledger line for chunk `i` of data `b`
(`fprintf(fmeta, "%d %zu %d %u", i, jobs[i].size, cs, jobs[i].hash)`). -/
def metaEntryOf (c : Codec) (i : Nat) (b : List Nat) : MetaEntry :=
  { id := i, origSize := b.length,
    compSize :=
      match workerCompress c b with
      | none => -1
      | some cb => (cb.length : Int),
    hash := fnv1a32 b }

/-- `compress_file_streaming input out_dir` (src/compressor.c lines
87-204): fails (returns -1, creating no output file) when
`num_chunks <= 0`, i.e. on an empty input; otherwise produces the container
byte stream (header `total_size`, `chunk_size`, `num_chunks`, then the
records in id order) and the ledger entries in the same order. -/
def compressFile (c : Codec) (X : List Nat) (C : Nat) :
    Option (List Nat × List MetaEntry) :=
  let T := X.length
  let n := numChunks T C
  if n = 0 then none
  else
    let chunks := fileChunks X C
    let header := le64 T ++ le64 C ++ le32 n
    let body := (chunks.map (fun b => encodeChunk b (workerCompress c b))).flatten
    let meta := (List.range n).map (fun i => metaEntryOf c i (chunkData X C i))
    some (header ++ body, meta)

/-! ### Decompressor (`decompress_file`, src/decompressor.c lines 11-82)

For each of `num_chunks` iterations: parse one ledger line (a parse failure
breaks the loop), read the 4-byte `comp_size` from the container; `-1`
selects the raw path (8-byte size then that many raw bytes, copied
verbatim); other non-positive values break; a positive value reads that
many stored bytes and calls `LZ4_decompress_safe` with the *ledger*
`orig_size` as output capacity — on failure writes nothing and continues
with the next chunk, on success writes exactly the returned bytes.  Every
break still falls through to `return 0`. -/

/-- One iteration of the record loop of `decompress_file`, for a ledger line
announcing original size `osz`: read the 4-byte `comp_size`; on `-1` take
the raw path (8-byte size, then that many bytes copied verbatim); other
non-positive sizes break; a positive size reads that many stored bytes and
calls the codec with capacity `osz` — codec failure writes nothing but
continues.  `none` models a `break` out of the loop; `some (w, rest)` means
`w` was written and the loop continues on `rest`. -/
def decodeStep (dc : Decodec) (s : List Nat) (osz : Nat) :
    Option (List Nat × List Nat) :=
  match readBytes 4 s with
  | none => none
  | some (csb, s1) =>
      if decodeI32 csb = -1 then
        match readBytes 8 s1 with
        | none => none
        | some (ob, s2) =>
            match readBytes (decodeU64 ob) s2 with
            | none => none
            | some (raw, s3) => some (raw, s3)
      else if decodeI32 csb ≤ 0 then none
      else
        match readBytes (decodeI32 csb).toNat s1 with
        | none => none
        | some (cb, s2) =>
            match dc cb osz with
            | none => some ([], s2)
            | some out => some (out, s2)

/-- The record-decoding loop of `decompress_file`: one `decodeStep` per
iteration (a missing ledger line is the `fscanf` parse failure, which
breaks); the result is everything written to the output file. -/
def decodeChunks (dc : Decodec) :
    Nat → List Nat → List MetaEntry → List Nat
  | 0, _, _ => []
  | _ + 1, _, [] => []
  | k + 1, s, m :: metas =>
      match decodeStep dc s m.origSize with
      | none => []
      | some (w, rest) => w ++ decodeChunks dc k rest metas

/-- `decompress_file cmp meta out_dir`: `none` models the `-1` returns on a
failed header read; otherwise the reconstructed byte stream is written and
the function returns 0 (success) — also after any mid-loop break. -/
def decompressFile (dc : Decodec) (cmp : List Nat) (meta : List MetaEntry) :
    Option (List Nat) :=
  match readBytes 8 cmp with
  | none => none
  | some (_, s1) =>
      match readBytes 8 s1 with
      | none => none
      | some (_, s2) =>
          match readBytes 4 s2 with
          | none => none
          | some (nb, s3) =>
              some (decodeChunks dc (decodeI32 nb).toNat s3 meta)

/-! ### Concrete codecs and containers used in witnesses and counterexamples -/

/-- A trivially correct compression codec for witnesses: append one byte
(always succeeds, nonempty output). -/
def padCodec : Codec := fun b => some (b ++ [0])

/-- The matching decompression codec: truncate to the announced capacity. -/
def takeDecodec : Decodec := fun cb cap => some (cb.take cap)

/-- A codec whose successful output (3 bytes) is larger than a 1-byte input. -/
def expandCodec : Codec := fun _ => some [0, 0, 0]

/-- A decompression codec that fails exactly on stored bytes `[9]`. -/
def failFirstDecodec : Decodec := fun cb _ => if cb = [9] then none else some [5]

/-- Container with two compressed records (`[9]` and `[8]`, stored sizes 1). -/
def c5Container : List Nat :=
  le64 2 ++ le64 1 ++ le32 2 ++ (int32ToLe 1 ++ [9]) ++ (int32ToLe 1 ++ [8])

/-- Ledger matching `c5Container`. -/
def c5Ledger : List MetaEntry := [⟨0, 1, 1, 0⟩, ⟨1, 1, 1, 0⟩]

/-- A decompression codec returning a single byte for stored bytes `[1,2]`. -/
def shortDecodec : Decodec := fun cb _ => if cb = [1, 2] then some [7] else none

/-- Container with one compressed record of stored size 2. -/
def c6Container : List Nat := le64 5 ++ le64 5 ++ le32 1 ++ (int32ToLe 2 ++ [1, 2])

/-- Ledger whose single line announces original_length 5. -/
def c6Ledger : List MetaEntry := [⟨0, 5, 2, 0⟩]

/-- A decompression codec that succeeds only when given output capacity 2
(as `LZ4_decompress_safe` fails when the capacity is too small). -/
def capDecodec : Decodec := fun _ cap => if cap = 2 then some [1, 2] else none

/-- Container with one compressed record (`[3,4]`, stored size 2). -/
def c7Container : List Nat := le64 2 ++ le64 2 ++ le32 1 ++ (int32ToLe 2 ++ [3, 4])

/-- Ledger announcing original_length 2 for the single record. -/
def c7LedgerA : List MetaEntry := [⟨0, 2, 2, 11⟩]

/-- Ledger announcing original_length 1 for the same record. -/
def c7LedgerB : List MetaEntry := [⟨0, 1, 2, 11⟩]

/-- Ledger equal to `c7LedgerA` except for the digest field. -/
def c7LedgerC : List MetaEntry := [⟨0, 2, 2, 12345⟩]

/-- Ledger equal to `c5Ledger` except for the digest fields. -/
def c5LedgerD : List MetaEntry := [⟨0, 1, 1, 999⟩, ⟨1, 1, 1, 77⟩]

/-! ## Lemmas: encodings -/

lemma le64_length (v : Nat) : (le64 v).length = 8 := rfl

lemma int32ToLe_length (i : Int) : (int32ToLe i).length = 4 := rfl

lemma decodeU32_le32 (v : Nat) (hv : v < 4294967296) : decodeU32 (le32 v) = v := by
  simp only [le32, decodeU32]
  omega

lemma int32ToLe_ofNat (v : Nat) (hv : v < 4294967296) :
    int32ToLe (v : Int) = le32 v := by
  unfold int32ToLe
  have h1 : (v : Int) % 4294967296 = (v : Int) := by
    apply Int.emod_eq_of_lt
    · exact Int.ofNat_nonneg v
    · exact_mod_cast hv
  rw [h1, Int.toNat_natCast]

lemma decodeI32_ofNat (v : Nat) (hv : v < 2147483648) :
    decodeI32 (int32ToLe (v : Int)) = (v : Int) := by
  rw [int32ToLe_ofNat v (by omega)]
  unfold decodeI32
  rw [decodeU32_le32 v (by omega)]
  simp only
  rw [if_pos hv]

lemma readBytes_exact (k : Nat) (a rest : List Nat) (h : a.length = k) :
    readBytes k (a ++ rest) = some (a, rest) := by
  subst h
  unfold readBytes
  rw [if_pos (by simp)]
  rw [List.take_left, List.drop_left]

lemma readBytes_of_le (k : Nat) (s : List Nat) (h : k ≤ s.length) :
    readBytes k s = some (s.take k, s.drop k) := by
  unfold readBytes
  rw [if_pos h]

/-! ## Lemmas: chunk planner arithmetic -/

lemma le_numChunks_mul (T C : Nat) (hC : 0 < C) : T ≤ numChunks T C * C := by
  have h1 := Nat.div_add_mod (T + C - 1) C
  have h2 : (T + C - 1) % C < C := Nat.mod_lt _ hC
  rw [numChunks, Nat.mul_comm]
  revert h1 h2
  generalize C * ((T + C - 1) / C) = p
  generalize (T + C - 1) % C = m
  intro h1 h2
  omega

lemma numChunks_pos (T C : Nat) (hT : 0 < T) (hC : 0 < C) : 0 < numChunks T C := by
  rw [numChunks]
  apply Nat.div_pos ?_ hC
  omega

lemma numChunks_pred_mul_lt (T C : Nat) (hT : 0 < T) (hC : 0 < C) :
    (numChunks T C - 1) * C < T := by
  have h1 : numChunks T C * C ≤ T + C - 1 := Nat.div_mul_le_self (T + C - 1) C
  rw [Nat.sub_mul, Nat.one_mul]
  revert h1
  generalize numChunks T C * C = p
  intro h1
  omega

lemma chunkLen_le (T C i : Nat) : chunkLen T C i ≤ C := by
  unfold chunkLen
  split <;> omega

lemma chunkLen_full (T C i n : Nat) (hC : 0 < C) (hT : 0 < T)
    (hn : n = numChunks T C) (hi : i + 1 < n) :
    chunkLen T C i = C := by
  have hB : (n - 1) * C < T := by
    rw [hn]
    exact numChunks_pred_mul_lt T C hT hC
  have hA : (i + 1) * C ≤ (n - 1) * C := Nat.mul_le_mul_right C (by omega)
  rw [Nat.succ_mul] at hA
  have key : ¬ (T - i * C < C) := by
    revert hA hB
    generalize i * C = x
    generalize (n - 1) * C = y
    intro hA hB
    omega
  unfold chunkLen
  rw [if_neg key]

lemma chunkLen_last_end (T C n : Nat) (hC : 0 < C) (hT : 0 < T)
    (hn : n = numChunks T C) :
    (n - 1) * C + chunkLen T C (n - 1) = T := by
  have hB : (n - 1) * C < T := by
    rw [hn]
    exact numChunks_pred_mul_lt T C hT hC
  have hU : T ≤ n * C := by
    rw [hn]
    exact le_numChunks_mul T C hC
  have hpos : 1 ≤ n := by
    rw [hn]
    exact numChunks_pos T C hT hC
  have hsub : n * C = (n - 1) * C + C := by
    conv_lhs => rw [show n = (n - 1) + 1 from by omega]
    rw [Nat.succ_mul]
  rw [hsub] at hU
  unfold chunkLen
  revert hB hU
  generalize (n - 1) * C = x
  intro hB hU
  split <;> omega

lemma flatten_chunks (C : Nat) :
    ∀ (n : Nat) (X : List Nat), X.length ≤ n * C →
      ((List.range n).map (fun i => (X.drop (i * C)).take C)).flatten = X := by
  intro n
  induction n with
  | zero =>
      intro X hX
      simp only [Nat.zero_mul, Nat.le_zero] at hX
      have : X = [] := List.eq_nil_of_length_eq_zero hX
      subst this
      rfl
  | succ n ih =>
      intro X hX
      have hfun : ∀ i : Nat,
          (X.drop ((i + 1) * C)).take C = ((X.drop C).drop (i * C)).take C := by
        intro i
        rw [List.drop_drop]
        congr 2
        rw [Nat.succ_mul]
        omega
      rw [List.range_succ_eq_map, List.map_cons, List.map_map, List.flatten_cons]
      have hrest :
          ((List.range n).map
            ((fun i => (X.drop (i * C)).take C) ∘ Nat.succ)).flatten = X.drop C := by
        have hcomp : ((fun i => (X.drop (i * C)).take C) ∘ Nat.succ)
            = fun i => ((X.drop C).drop (i * C)).take C := by
          funext i
          simp only [Function.comp_apply]
          exact hfun i
        rw [hcomp]
        apply ih
        rw [List.length_drop]
        rw [Nat.succ_mul] at hX
        omega
      rw [hrest]
      simp only [Nat.zero_mul, List.drop_zero]
      exact List.take_append_drop C X

lemma sum_chunkLen (T C : Nat) (hC : 0 < C) :
    ((List.range (numChunks T C)).map (fun i => chunkLen T C i)).sum = T := by
  have hfl := flatten_chunks C (numChunks T C) (List.replicate T (0 : Nat))
      (by simpa using le_numChunks_mul T C hC)
  have hlen := congrArg List.length hfl
  rw [List.length_flatten, List.map_map, List.length_replicate] at hlen
  have hmap : (List.range (numChunks T C)).map (fun i => chunkLen T C i)
      = (List.range (numChunks T C)).map
          (List.length ∘ fun i => ((List.replicate T (0 : Nat)).drop (i * C)).take C) := by
    apply List.map_congr_left
    intro i _
    simp only [Function.comp_apply, List.length_take, List.length_drop,
      List.length_replicate]
    unfold chunkLen
    generalize i * C = x
    split <;> omega
  rw [hmap]
  exact hlen

lemma planChunks_length (T C : Nat) : (planChunks T C).length = numChunks T C := by
  simp [planChunks]

lemma planChunks_get (T C i : Nat) (h : i < (planChunks T C).length) :
    (planChunks T C).get ⟨i, h⟩ = ⟨i, i * C, chunkLen T C i⟩ := by
  simp [planChunks]

/-! ## Lemmas: job queue -/

lemma popSeq_spec (k : Nat) :
    ∀ (n j : Nat), j ≤ n →
      popSeq k ⟨n, j⟩ =
        ((List.range' j (min k (n - j))).map some ++
           List.replicate (k - (n - j)) none,
         ⟨n, j + min k (n - j)⟩) := by
  induction k with
  | zero => intro n j hj; simp [popSeq]
  | succ k ih =>
      intro n j hj
      by_cases h : n ≤ j
      · have h0 : n - j = 0 := by omega
        have hpop : jobqueue_pop ⟨n, j⟩ = (none, ⟨n, j⟩) := by
          unfold jobqueue_pop
          rw [if_pos h]
        rw [popSeq, hpop]
        simp only
        rw [ih n j hj]
        simp [h0, List.replicate_succ]
      · have hpop : jobqueue_pop ⟨n, j⟩ = (some j, ⟨n, j + 1⟩) := by
          unfold jobqueue_pop
          rw [if_neg h]
        have hmin : min (k + 1) (n - j) = min k (n - j - 1) + 1 := by omega
        rw [popSeq, hpop]
        simp only
        rw [ih n (j + 1) (by omega)]
        rw [Prod.mk.injEq]
        constructor
        · rw [hmin, List.range'_succ, List.map_cons, List.cons_append]
          rw [show n - (j + 1) = n - j - 1 from by omega]
          rw [show k + 1 - (n - j) = k - (n - j - 1) from by omega]
        · rw [hmin]
          rw [show n - (j + 1) = n - j - 1 from by omega]
          rw [JobQueue.mk.injEq]
          omega

lemma runSchedule_claims (s : List Nat) :
    ∀ (n j : Nat),
      (runSchedule s ⟨n, j⟩).filterMap Prod.snd
        = List.range' j (min s.length (n - j)) := by
  induction s with
  | nil => intro n j; simp [runSchedule]
  | cons w ws ih =>
      intro n j
      by_cases h : n ≤ j
      · have hpop : jobqueue_pop ⟨n, j⟩ = (none, ⟨n, j⟩) := by
          unfold jobqueue_pop
          rw [if_pos h]
        rw [runSchedule, hpop]
        simp only [List.filterMap_cons]
        rw [ih n j]
        have h0 : n - j = 0 := by omega
        simp [h0]
      · have hpop : jobqueue_pop ⟨n, j⟩ = (some j, ⟨n, j + 1⟩) := by
          unfold jobqueue_pop
          rw [if_neg h]
        rw [runSchedule, hpop]
        simp only [List.filterMap_cons]
        rw [ih n (j + 1)]
        have hmin : min (ws.length + 1) (n - j) = min ws.length (n - j - 1) + 1 := by
          omega
        simp only [List.length_cons]
        rw [hmin, List.range'_succ]
        rw [show n - (j + 1) = n - j - 1 from by omega]

/-! ## Lemmas: decoder -/

lemma workerCompress_pos (c : Codec) (b cb : List Nat)
    (h : workerCompress c b = some cb) : 0 < cb.length := by
  unfold workerCompress at h
  cases hc : c b with
  | none =>
      rw [hc] at h
      exact Option.noConfusion h
  | some d =>
      rw [hc] at h
      replace h : (if 0 < d.length then some d else none) = some cb := h
      by_cases hd : 0 < d.length
      · rw [if_pos hd] at h
        obtain rfl := Option.some.inj h
        exact hd
      · rw [if_neg hd] at h
        exact Option.noConfusion h

lemma decodeChunks_cons (dc : Decodec) (k : Nat) (s : List Nat) (m : MetaEntry)
    (metas : List MetaEntry) :
    decodeChunks dc (k + 1) s (m :: metas)
      = match decodeStep dc s m.origSize with
        | none => []
        | some (w, rest) => w ++ decodeChunks dc k rest metas := rfl

lemma decodeStep_compressed (dc : Decodec) (s s1 s2 csb cb : List Nat) (osz : Nat)
    (h1 : readBytes 4 s = some (csb, s1))
    (h2 : 0 < decodeI32 csb)
    (h3 : readBytes (decodeI32 csb).toNat s1 = some (cb, s2)) :
    decodeStep dc s osz
      = match dc cb osz with
        | none => some ([], s2)
        | some out => some (out, s2) := by
  have hne : ¬ (decodeI32 csb = -1) := by omega
  have hle : ¬ (decodeI32 csb ≤ 0) := by omega
  unfold decodeStep
  simp only [h1]
  rw [if_neg hne, if_neg hle]
  simp only [h3]

lemma decodeChunks_congr (dc : Decodec) :
    ∀ (k : Nat) (s : List Nat) (m1 m2 : List MetaEntry),
      m1.map MetaEntry.origSize = m2.map MetaEntry.origSize →
      decodeChunks dc k s m1 = decodeChunks dc k s m2 := by
  intro k
  induction k with
  | zero => intro s m1 m2 h; rfl
  | succ k ih =>
      intro s m1 m2 h
      cases m1 with
      | nil =>
          cases m2 with
          | nil => rfl
          | cons b bs => simp at h
      | cons a as =>
          cases m2 with
          | nil => simp at h
          | cons b bs =>
              simp only [List.map_cons, List.cons.injEq] at h
              obtain ⟨hab, hrest⟩ := h
              rw [decodeChunks_cons, decodeChunks_cons, hab]
              cases hs : decodeStep dc s b.origSize with
              | none => rfl
              | some p =>
                  obtain ⟨w, rest⟩ := p
                  simp only
                  rw [ih rest as bs hrest]

lemma decompressFile_congr (dc : Decodec) (cmp : List Nat)
    (m1 m2 : List MetaEntry)
    (h : m1.map MetaEntry.origSize = m2.map MetaEntry.origSize) :
    decompressFile dc cmp m1 = decompressFile dc cmp m2 := by
  unfold decompressFile
  cases readBytes 8 cmp with
  | none => rfl
  | some p =>
      obtain ⟨a, s1⟩ := p
      simp only
      cases readBytes 8 s1 with
      | none => rfl
      | some q =>
          obtain ⟨b, s2⟩ := q
          simp only
          cases readBytes 4 s2 with
          | none => rfl
          | some r =>
              obtain ⟨nb, s3⟩ := r
              simp only
              rw [decodeChunks_congr dc _ s3 m1 m2 h]

lemma fileChunks_mem_length (X : List Nat) (C : Nat) (hX : 0 < X.length)
    (hC : 0 < C) :
    ∀ b ∈ fileChunks X C, 1 ≤ b.length ∧ b.length ≤ C := by
  intro b hb
  rw [fileChunks, List.mem_map] at hb
  obtain ⟨i, hi, rfl⟩ := hb
  rw [List.mem_range] at hi
  have hlen : (chunkData X C i).length = min C (X.length - i * C) := by
    rw [chunkData, List.length_take, List.length_drop]
  constructor
  · have h2 : i * C ≤ (numChunks X.length C - 1) * C :=
      Nat.mul_le_mul_right C (by omega)
    have h3 := numChunks_pred_mul_lt X.length C hX hC
    rw [hlen]
    revert h2 h3
    generalize i * C = x
    generalize (numChunks X.length C - 1) * C = y
    intro h2 h3
    omega
  · rw [hlen]
    generalize i * C = x
    omega

lemma decodeChunks_encode (dc : Decodec) (c : Codec) :
    ∀ (chunks : List (List Nat)) (metas : List MetaEntry),
      metas.map MetaEntry.origSize = chunks.map List.length →
      (∀ b ∈ chunks, ∃ cb, workerCompress c b = some cb ∧
          cb.length < 2147483648 ∧ dc cb b.length = some b) →
      decodeChunks dc chunks.length
        ((chunks.map (fun b => encodeChunk b (workerCompress c b))).flatten) metas
        = chunks.flatten := by
  intro chunks
  induction chunks with
  | nil => intro metas hm hcb; rfl
  | cons b bs ih =>
      intro metas hm hcb
      cases metas with
      | nil => simp at hm
      | cons m ms =>
          simp only [List.map_cons, List.cons.injEq] at hm
          obtain ⟨hm1, hm2⟩ := hm
          obtain ⟨cb, hw, hlt, hdc⟩ := hcb b (List.mem_cons_self b bs)
          have hpos : 0 < cb.length := workerCompress_pos c b cb hw
          simp only [List.map_cons, List.flatten_cons, List.length_cons]
          rw [decodeChunks_cons, hw]
          have henc : encodeChunk b (some cb)
              = int32ToLe (cb.length : Int) ++ cb := rfl
          rw [henc, List.append_assoc]
          have hv : decodeI32 (int32ToLe (cb.length : Int)) = (cb.length : Int) :=
            decodeI32_ofNat cb.length hlt
          have hstep := decodeStep_compressed dc
            (int32ToLe (cb.length : Int) ++
              (cb ++ ((bs.map (fun x => encodeChunk x (workerCompress c x))).flatten)))
            (cb ++ ((bs.map (fun x => encodeChunk x (workerCompress c x))).flatten))
            ((bs.map (fun x => encodeChunk x (workerCompress c x))).flatten)
            (int32ToLe (cb.length : Int)) cb m.origSize
            (readBytes_exact 4 (int32ToLe (cb.length : Int)) _ (int32ToLe_length _))
            (by rw [hv]; exact_mod_cast hpos)
            (by rw [hv, Int.toNat_natCast]
                exact readBytes_exact cb.length cb _ rfl)
          rw [hstep, hm1, hdc]
          simp only
          rw [ih ms hm2 (fun x hx => hcb x (List.mem_cons_of_mem b hx))]

lemma le32_length (v : Nat) : (le32 v).length = 4 := rfl

lemma decompressFile_eq (dc : Decodec) (T C n : Nat) (body : List Nat)
    (meta : List MetaEntry) (hn : n < 2147483648) :
    decompressFile dc (le64 T ++ le64 C ++ le32 n ++ body) meta
      = some (decodeChunks dc n body meta) := by
  unfold decompressFile
  rw [List.append_assoc, List.append_assoc]
  simp only [readBytes_exact, le64_length, le32_length]
  have hd : decodeI32 (le32 n) = (n : Int) := by
    rw [← int32ToLe_ofNat n (by omega)]
    exact decodeI32_ofNat n hn
  rw [hd, Int.toNat_natCast]

lemma compressFile_eq (c : Codec) (X : List Nat) (C : Nat)
    (h : ¬ numChunks X.length C = 0) :
    compressFile c X C = some
      (le64 X.length ++ le64 C ++ le32 (numChunks X.length C) ++
        ((fileChunks X C).map (fun b => encodeChunk b (workerCompress c b))).flatten,
       (List.range (numChunks X.length C)).map
         (fun i => metaEntryOf c i (chunkData X C i))) := by
  simp only [compressFile]
  rw [if_neg h]

/-! ## Claim theorems -/

/-- C4 (confirmed): for every total length T ≥ 1 and chunk size C ≥ 1 (with
the chunk count inside C `int` range, matching the cast in the source), the
planner produces exactly `ceil(T/C) = (T + C - 1) / C` descriptors;
descriptor `i` has id `i` and offset `i * C` (ids contiguous from 0); the
lengths sum to `T`; every descriptor but the last has length exactly `C`,
no descriptor exceeds `C` (so at most one — the last — is shorter), and the
last descriptor ends exactly at `T`: together the descriptors cover
`[0, T)` with no gaps or overlaps. -/
theorem planner_coverage (T C : Nat) (hT : 1 ≤ T) (hC : 1 ≤ C)
    (hfit : numChunks T C < 2147483648) :
    (planChunks T C).length = (T + C - 1) / C ∧
    (∀ i : Nat, ∀ h : i < (planChunks T C).length,
      ((planChunks T C).get ⟨i, h⟩).id = i ∧
      ((planChunks T C).get ⟨i, h⟩).offset = i * C) ∧
    ((planChunks T C).map Descriptor.length).sum = T ∧
    (∀ i : Nat, ∀ h : i < (planChunks T C).length,
      i + 1 < (planChunks T C).length →
      ((planChunks T C).get ⟨i, h⟩).length = C) ∧
    (∀ i : Nat, ∀ h : i < (planChunks T C).length,
      ((planChunks T C).get ⟨i, h⟩).length ≤ C) ∧
    (∀ i : Nat, ∀ h : i < (planChunks T C).length,
      i + 1 = (planChunks T C).length →
      ((planChunks T C).get ⟨i, h⟩).offset +
        ((planChunks T C).get ⟨i, h⟩).length = T) := by
  refine ⟨planChunks_length T C, ?_, ?_, ?_, ?_, ?_⟩
  · intro i h
    rw [planChunks_get]
    exact ⟨rfl, rfl⟩
  · have hmap : (planChunks T C).map Descriptor.length
        = (List.range (numChunks T C)).map (fun i => chunkLen T C i) := by
      simp [planChunks, List.map_map, Function.comp]
    rw [hmap]
    exact sum_chunkLen T C (by omega)
  · intro i h hlt
    rw [planChunks_get]
    rw [planChunks_length] at hlt
    exact chunkLen_full T C i (numChunks T C) (by omega) (by omega) rfl hlt
  · intro i h
    rw [planChunks_get]
    exact chunkLen_le T C i
  · intro i h hlast
    rw [planChunks_get]
    rw [planChunks_length] at hlast
    have hi : i = numChunks T C - 1 := by
      have := numChunks_pos T C (by omega) (by omega)
      omega
    subst hi
    exact chunkLen_last_end T C (numChunks T C) (by omega) (by omega) rfl

/-- Witness for `planner_coverage` at T = 10, C = 4 (Scenario A of the spec:
descriptors of lengths 4, 4, 2 summing to 10). -/
theorem planner_coverage_witness :
    ((planChunks 10 4).map Descriptor.length).sum = 10 :=
  (planner_coverage 10 4 (by decide) (by decide) (by decide)).2.2.1

/-- C9 (confirmed): starting from `jobqueue_init n`, `k` successive
`jobqueue_pop` calls return exactly the job indices `0, 1, ..., n-1` in
ascending order, each once, and every call beyond the n-th returns `NULL`;
after every number of operations the cursor equals `min k n`, so the
invariant `0 ≤ next ≤ count` always holds. -/
theorem jobqueue_pop_sequential (n k : Nat) :
    (popSeq k (jobqueue_init n)).1
      = (List.range (min k n)).map some ++ List.replicate (k - n) none ∧
    (popSeq k (jobqueue_init n)).2.next = min k n ∧
    (popSeq k (jobqueue_init n)).2.next ≤ (popSeq k (jobqueue_init n)).2.count := by
  have hinit : jobqueue_init n = ⟨n, 0⟩ := rfl
  have h := popSeq_spec k n 0 (Nat.zero_le n)
  rw [hinit, h]
  refine ⟨?_, ?_, ?_⟩
  · show (List.range' 0 (min k (n - 0))).map some ++
        List.replicate (k - (n - 0)) none
        = (List.range (min k n)).map some ++ List.replicate (k - n) none
    rw [Nat.sub_zero, List.range_eq_range']
  · show 0 + min k (n - 0) = min k n
    omega
  · show 0 + min k (n - 0) ≤ n
    omega

/-- C2 (confirmed): the mutex in `jobqueue_pop` makes each claim atomic, so
any concurrent run is an interleaving of atomic pops given by a schedule
(the worker performing each pop).  For every schedule with at least M pop
calls — as when each of N ≥ 1 workers loops until it sees `NULL` — the
claimed ids are pairwise distinct (no two pops, hence no two workers, ever
obtain the same id) and every id in `[0, M)` is claimed exactly once,
regardless of the schedule and therefore regardless of N. -/
theorem exactly_once_claim (M : Nat) (s : List Nat) (hs : M ≤ s.length) :
    ((runSchedule s (jobqueue_init M)).filterMap Prod.snd).Nodup ∧
    ∀ i : Nat, i < M →
      ((runSchedule s (jobqueue_init M)).filterMap Prod.snd).count i = 1 := by
  have hinit : jobqueue_init M = ⟨M, 0⟩ := rfl
  have h := runSchedule_claims s M 0
  rw [hinit, h]
  rw [show min s.length (M - 0) = M from by omega]
  rw [← List.range_eq_range']
  refine ⟨List.nodup_range M, ?_⟩
  intro i hi
  exact List.count_eq_one_of_mem (List.nodup_range M) (List.mem_range.mpr hi)

/-- Witness for `exactly_once_claim`: 3 descriptors, 3 workers (ids 7, 8, 9)
performing 5 interleaved pops. -/
theorem exactly_once_claim_witness :
    ((runSchedule [7, 8, 7, 9, 8] (jobqueue_init 3)).filterMap Prod.snd).Nodup ∧
    ((runSchedule [7, 8, 7, 9, 8] (jobqueue_init 3)).filterMap Prod.snd).count 1 = 1 :=
  ⟨(exactly_once_claim 3 [7, 8, 7, 9, 8] (by decide)).1,
   (exactly_once_claim 3 [7, 8, 7, 9, 8] (by decide)).2 1 (by decide)⟩

/-- C1 (confirmed): round trip.  Under the contract of the external codec —
compression succeeds on every chunk-sized nonempty input with a nonempty
output whose size fits a C `int`, as `LZ4_compress_default` guarantees with
an `LZ4_compressBound`-sized buffer, and decompression inverts it when given
the original length as capacity — compressing any file of length ≥ 1 and
then decompressing the produced container with the produced ledger
reconstructs the file bit-for-bit: the concatenation of all decoded records
in order equals the input exactly. -/
theorem compress_decompress_roundtrip (c : Codec) (dc : Decodec)
    (X : List Nat) (C : Nat) (hX : 1 ≤ X.length) (hC : 1 ≤ C)
    (hfit : numChunks X.length C < 2147483648)
    (hcodec : ∀ b : List Nat, 1 ≤ b.length → b.length ≤ C →
      ∃ cb, c b = some cb ∧ 0 < cb.length ∧ cb.length < 2147483648 ∧
        dc cb b.length = some b) :
    (compressFile c X C).isSome = true ∧
    ∀ cnt meta, compressFile c X C = some (cnt, meta) →
      decompressFile dc cnt meta = some X := by
  have hn : ¬ numChunks X.length C = 0 := by
    have := numChunks_pos X.length C (by omega) (by omega)
    omega
  have hcf := compressFile_eq c X C hn
  refine ⟨by rw [hcf]; rfl, ?_⟩
  intro cnt meta hcm
  rw [hcf, Option.some_inj, Prod.mk.injEq] at hcm
  obtain ⟨h1, h2⟩ := hcm
  subst h1
  subst h2
  rw [decompressFile_eq dc X.length C (numChunks X.length C) _ _ hfit]
  have hb : ∀ b ∈ fileChunks X C, ∃ cb, workerCompress c b = some cb ∧
      cb.length < 2147483648 ∧ dc cb b.length = some b := by
    intro b hbm
    obtain ⟨hb1, hb2⟩ := fileChunks_mem_length X C (by omega) (by omega) b hbm
    obtain ⟨cb, hcb, hpos, hlt, hdc⟩ := hcodec b hb1 hb2
    refine ⟨cb, ?_, hlt, hdc⟩
    unfold workerCompress
    rw [hcb]
    show (if 0 < cb.length then some cb else none) = some cb
    rw [if_pos hpos]
  have hlen : (fileChunks X C).length = numChunks X.length C := by
    simp [fileChunks]
  rw [← hlen]
  have hmeta : ((List.range (fileChunks X C).length).map
      (fun i => metaEntryOf c i (chunkData X C i))).map MetaEntry.origSize
      = (fileChunks X C).map List.length := by
    simp [fileChunks, metaEntryOf, List.map_map, Function.comp]
  rw [decodeChunks_encode dc c (fileChunks X C) _ hmeta hb]
  have hflat : (fileChunks X C).flatten = X := by
    have hfc := flatten_chunks C (numChunks X.length C) X
      (le_numChunks_mul X.length C (by omega))
    simpa [fileChunks, chunkData] using hfc
  rw [hflat]

/-- Witness for `compress_decompress_roundtrip`: the 10-byte input of the
spec's Scenario A with chunk size 4, under a concrete correct codec pair. -/
theorem compress_decompress_roundtrip_witness :
    (compressFile padCodec [1, 2, 3, 4, 5, 6, 7, 8, 9, 10] 4).isSome = true ∧
    decompressFile takeDecodec
      [10, 0, 0, 0, 0, 0, 0, 0, 4, 0, 0, 0, 0, 0, 0, 0, 3, 0, 0, 0,
       5, 0, 0, 0, 1, 2, 3, 4, 0, 5, 0, 0, 0, 5, 6, 7, 8, 0, 3, 0, 0, 0, 9, 10, 0]
      [⟨0, 4, 5, 1463068797⟩, ⟨1, 4, 5, 2653442085⟩, ⟨2, 2, 3, 629669994⟩]
      = some [1, 2, 3, 4, 5, 6, 7, 8, 9, 10] := by
  have hc : ∀ b : List Nat, 1 ≤ b.length → b.length ≤ 4 →
      ∃ cb, padCodec b = some cb ∧ 0 < cb.length ∧ cb.length < 2147483648 ∧
        takeDecodec cb b.length = some b := by
    intro b h1 h2
    refine ⟨b ++ [0], rfl, by simp, ?_, ?_⟩
    · simp only [List.length_append, List.length_singleton]
      omega
    · have ht : (b ++ [0]).take b.length = b := List.take_left b [0]
      simp [takeDecodec, ht]
  have h := compress_decompress_roundtrip padCodec takeDecodec
      [1, 2, 3, 4, 5, 6, 7, 8, 9, 10] 4 (by decide) (by decide) (by decide) hc
  exact ⟨h.1, h.2 _ _ (by decide)⟩

/-- C3 counterexample: `expandCodec` succeeds on the 1-byte chunk `[1]` with
the 3-byte output `[0,0,0]` — an output that is *not* strictly smaller than
the input — yet the worker stores the chunk in Compressed mode with the
codec output as payload, not in Raw mode: the claim's second trigger
condition does not exist in the code. -/
theorem raw_fallback_cex :
    expandCodec [1] = some [0, 0, 0] ∧
    ¬ ((processChunk expandCodec [1]).storedLength
        < (processChunk expandCodec [1]).originalLength) ∧
    (processChunk expandCodec [1]).mode = StorageMode.Compressed := by decide

/-- C3 amended: the worker falls back to Raw mode exactly on codec failure —
the code makes no comparison of the output size with the input size.  When
the codec fails, the chunk is stored Raw with the original bytes verbatim
and stored_length = original_length; a codec success is stored Compressed
even when its output is as large as or larger than the input. -/
theorem raw_fallback_on_codec_failure (c : Codec) (b : List Nat)
    (h : c b = none) :
    (processChunk c b).mode = StorageMode.Raw ∧
    (processChunk c b).payload = b ∧
    (processChunk c b).storedLength = (processChunk c b).originalLength := by
  simp [processChunk, h]

/-- Witness for `raw_fallback_on_codec_failure` with an always-failing codec
on the chunk `[7]`. -/
theorem raw_fallback_on_codec_failure_witness :
    (processChunk (fun _ => none) [7]).mode = StorageMode.Raw ∧
    (processChunk (fun _ => none) [7]).payload = [7] ∧
    (processChunk (fun _ => none) [7]).storedLength
      = (processChunk (fun _ => none) [7]).originalLength :=
  raw_fallback_on_codec_failure (fun _ => none) [7] rfl

/-- C5 counterexample: in `c5Container` the first record's stored bytes `[9]`
fail to decode (`failFirstDecodec` models a negative codec return for them),
yet the run is not aborted: chunk 0 is skipped, decoding continues, chunk 1
decodes to `[5]`, and `decompress_file` reports success (`some`, i.e.
return 0) — no CorruptContainer/CodecFailure is raised. -/
theorem decode_failure_not_fatal_cex :
    failFirstDecodec [9] 1 = none ∧
    decompressFile failFirstDecodec c5Container c5Ledger = some [5] := by decide

/-- C5 amended: a per-chunk decompression failure is not fatal for the run:
the failed chunk is skipped (nothing is written for it) while decoding
continues with the following records, and whenever the 20-byte header could
be read the operation still reports success. -/
theorem decode_failure_skips_chunk :
    (∀ (dc : Decodec) (k : Nat) (s s1 s2 csb cb : List Nat)
       (m : MetaEntry) (metas : List MetaEntry),
       readBytes 4 s = some (csb, s1) →
       0 < decodeI32 csb →
       readBytes (decodeI32 csb).toNat s1 = some (cb, s2) →
       dc cb m.origSize = none →
       decodeChunks dc (k + 1) s (m :: metas) = decodeChunks dc k s2 metas) ∧
    (∀ (dc : Decodec) (cmp : List Nat) (metas : List MetaEntry),
       20 ≤ cmp.length → (decompressFile dc cmp metas).isSome = true) := by
  constructor
  · intro dc k s s1 s2 csb cb m metas h1 h2 h3 h4
    rw [decodeChunks_cons,
      decodeStep_compressed dc s s1 s2 csb cb m.origSize h1 h2 h3, h4]
    rfl
  · intro dc cmp metas h
    obtain ⟨h1, hs1⟩ : readBytes 8 cmp = some (cmp.take 8, cmp.drop 8) ∧
        (cmp.drop 8).length = cmp.length - 8 := by
      exact ⟨readBytes_of_le 8 cmp (by omega), by simp⟩
    unfold decompressFile
    simp only [h1]
    obtain ⟨h2, hs2⟩ : readBytes 8 (cmp.drop 8)
          = some ((cmp.drop 8).take 8, (cmp.drop 8).drop 8) ∧
        ((cmp.drop 8).drop 8).length = cmp.length - 16 := by
      refine ⟨readBytes_of_le 8 (cmp.drop 8) (by rw [hs1]; omega),
        by simp only [List.length_drop]; omega⟩
    simp only [h2]
    have h3 : readBytes 4 ((cmp.drop 8).drop 8)
        = some (((cmp.drop 8).drop 8).take 4, ((cmp.drop 8).drop 8).drop 4) :=
      readBytes_of_le 4 _ (by rw [hs2]; omega)
    simp only [h3]
    rfl

/-- Witness for `decode_failure_skips_chunk` on the concrete C5 container:
the failing first record is skipped and the header check reports success. -/
theorem decode_failure_skips_chunk_witness :
    decodeChunks failFirstDecodec 2 (int32ToLe 1 ++ [9] ++ (int32ToLe 1 ++ [8]))
      c5Ledger
      = decodeChunks failFirstDecodec 1 (int32ToLe 1 ++ [8]) [⟨1, 1, 1, 0⟩] ∧
    (decompressFile failFirstDecodec c5Container c5Ledger).isSome = true :=
  ⟨decode_failure_skips_chunk.1 failFirstDecodec 1
      (int32ToLe 1 ++ [9] ++ (int32ToLe 1 ++ [8])) ([9] ++ (int32ToLe 1 ++ [8]))
      (int32ToLe 1 ++ [8]) (int32ToLe 1) [9] ⟨0, 1, 1, 0⟩ [⟨1, 1, 1, 0⟩]
      (by decide) (by decide) (by decide) (by decide),
   decode_failure_skips_chunk.2 failFirstDecodec c5Container c5Ledger (by decide)⟩

/-- C6 counterexample: for the single Compressed record of `c6Container`
(stored_length 2, ledger original_length 5) the codec succeeds but returns
only 1 byte; `decompress_file` performs no size check, writes that byte, and
reports success — the output is silently truncated instead of failing with
CorruptContainer. -/
theorem no_size_check_cex :
    shortDecodec [1, 2] 5 = some [7] ∧
    decompressFile shortDecodec c6Container c6Ledger = some [7] ∧
    ¬ (([7] : List Nat).length = 5) := by decide

/-- C6 amended: for a Compressed record the reader does use stored_length as
the codec input bound (exactly the stored bytes are passed) and
original_length as the output capacity, but it never compares the actual
decompressed size with original_length: whatever bytes the codec returns
are written verbatim — a shorter-than-announced output is accepted, not
reported. -/
theorem decode_no_size_check (dc : Decodec) (k : Nat)
    (s s1 s2 csb cb out : List Nat) (m : MetaEntry) (metas : List MetaEntry)
    (h1 : readBytes 4 s = some (csb, s1))
    (h2 : 0 < decodeI32 csb)
    (h3 : readBytes (decodeI32 csb).toNat s1 = some (cb, s2))
    (h4 : dc cb m.origSize = some out) :
    decodeChunks dc (k + 1) s (m :: metas)
      = out ++ decodeChunks dc k s2 metas := by
  rw [decodeChunks_cons,
    decodeStep_compressed dc s s1 s2 csb cb m.origSize h1 h2 h3, h4]

/-- Witness for `decode_no_size_check`: the codec output `[7]` (1 byte,
although the ledger announces 5) is written verbatim. -/
theorem decode_no_size_check_witness :
    decodeChunks shortDecodec 1 (int32ToLe 2 ++ [1, 2]) c6Ledger
      = [7] ++ decodeChunks shortDecodec 0 [] [] :=
  decode_no_size_check shortDecodec 0 (int32ToLe 2 ++ [1, 2]) [1, 2] []
    (int32ToLe 2) [1, 2] [7] ⟨0, 5, 2, 0⟩ []
    (by decide) (by decide) (by decide) (by decide)

/-- C7 counterexample: the same container `c7Container` decoded with two
parseable ledgers that differ in original_length gives different outputs
(`[1,2]` with capacity 2; empty with capacity 1, where the codec fails) —
the reconstruction is not a function of the container bytes alone, because
`decompress_file` takes the decompression bound from the ledger line, the
container having no per-record original-length field on this path. -/
theorem ledger_affects_output_cex :
    decompressFile capDecodec c7Container c7LedgerA = some [1, 2] ∧
    decompressFile capDecodec c7Container c7LedgerB = some [] ∧
    ¬ ((some [1, 2] : Option (List Nat)) = some []) := by decide

/-- C7 amended: the reconstructed output is a function of the container
bytes and of the ledger's per-line original_length fields: two runs on the
same container with ledgers that agree line-by-line on original_length are
identical (every other ledger field — id, stored size, digest — is
ignored), but the ledger original_length is genuinely used as the codec
output bound, so ledgers differing there can change the output. -/
theorem output_depends_on_ledger_lengths (dc : Decodec) (cmp : List Nat)
    (m1 m2 : List MetaEntry)
    (h : m1.map MetaEntry.origSize = m2.map MetaEntry.origSize) :
    decompressFile dc cmp m1 = decompressFile dc cmp m2 :=
  decompressFile_congr dc cmp m1 m2 h

/-- Witness for `output_depends_on_ledger_lengths`: ledgers agreeing on
original_length but differing in the digest field give equal results. -/
theorem output_depends_on_ledger_lengths_witness :
    decompressFile capDecodec c7Container c7LedgerA
      = decompressFile capDecodec c7Container c7LedgerC :=
  output_depends_on_ledger_lengths capDecodec c7Container c7LedgerA c7LedgerC
    (by decide)

/-- C8 (confirmed): a zero-length input yields `num_chunks = 0`, and
`compress_file_streaming` fails with the "Nothing to compress" error return
before either output stream is opened, so neither the .cmp container nor
the .meta ledger is created — modelled by the `none` result carrying no
output data. -/
theorem empty_input_rejected (c : Codec) (C : Nat) :
    compressFile c [] C = none := by
  have h : numChunks (List.length ([] : List Nat)) C = 0 := by
    show numChunks 0 C = 0
    unfold numChunks
    cases C with
    | zero => simp
    | succ m =>
        apply Nat.div_eq_of_lt
        omega
  simp only [compressFile]
  rw [if_pos h]

/-- C10 (confirmed): `decompress_file` reads the digest field of every
ledger line and then never uses it — no digest is recomputed or compared,
and no strict-integrity mode exists: for ledgers that agree line-by-line on
id, original_length and stored size but differ arbitrarily in their digest
fields, the reconstructed bytes and the exit status are identical. -/
theorem digest_ignored (dc : Decodec) (cmp : List Nat)
    (m1 m2 : List MetaEntry)
    (h : m1.map (fun m => (m.id, m.origSize, m.compSize))
       = m2.map (fun m => (m.id, m.origSize, m.compSize))) :
    decompressFile dc cmp m1 = decompressFile dc cmp m2 := by
  apply decompressFile_congr
  have h2 := congrArg (List.map (fun t : Nat × Nat × Int => t.2.1)) h
  simpa [List.map_map, Function.comp] using h2

/-- Witness for `digest_ignored`: the two C5 ledgers differ only in their
digest fields and give identical results on `c5Container`. -/
theorem digest_ignored_witness :
    decompressFile failFirstDecodec c5Container c5Ledger
      = decompressFile failFirstDecodec c5Container c5LedgerD :=
  digest_ignored failFirstDecodec c5Container c5Ledger c5LedgerD (by decide)

end FourZip
